import Mathlib

/-!
Verification development for the Huntsman SNR radiometry module (SNR.py).

The module has three operations built on a fixed table of band constants:
snr (signal-to-noise ratio of an exposure), etc (exposure time needed to
reach a target SNR) and limit (surface brightness reachable at a target
SNR).  All arithmetic is embedded as exact real arithmetic.  An Except
layer mirrors the Python runtime behaviour: a missing dictionary key
raises KeyError, division by zero raises ZeroDivisionError and math.sqrt
or math.log10 outside their domains raise ValueError.
-/

namespace SNRSpec

/-- Python runtime error kinds that the source module can raise.  The extra
constructor nonTermination marks a while loop that never exits; the
development proves that branch unreachable for valid inputs. -/
inductive PyErr
  | keyError
  | zeroDivisionError
  | valueError
  | nonTermination
  deriving DecidableEq

/-- Python dictionary read d[k] over an association list: the value at the
first matching key, or a KeyError (modelled as none) when the key is
missing. -/
def lookup (a : String) : List (String × ℝ) → Option ℝ
  | [] => none
  | (k, v) :: es => if a = k then some v else lookup a es

/-- Sky surface brightness, Gunn g and r bands (AB mag per square arcsec). -/
noncomputable def sky_mu : List (String × ℝ) := [("g", 22.0), ("r", 21.0)]

/-- Dark current of the SBIG STD-8300M sensor (electrons per pixel per second). -/
noncomputable def dark_current : ℝ := 0.04

/-- Read noise of the sensor (electrons per pixel per read). -/
noncomputable def read_noise : ℝ := 10.0

/-- Photons per second per pixel at 0 AB mag per square arcsec, per band. -/
noncomputable def gamma0 : List (String × ℝ) := [("g", 1.79e9), ("r", 1.16e9)]

/-- Fractional overall system efficiency, per band. -/
noncomputable def efficiency : List (String × ℝ) := [("g", 0.34), ("r", 0.35)]

/-- Translation of the snr function of SNR.py.  The rates, the sub-exposure
count, the optional rounding of the total exposure time, the noise model and
the returned ratio follow the source line by line; the Except layer records
where the Python runtime would raise instead of returning a float. -/
noncomputable def snr (sci_mu : ℝ) (band : String) (total_exp_time : ℝ)
    (sub_exp_time : ℝ := 600) (binning : ℝ := 1) (N : ℝ := 1)
    (round_up : Bool := true) : Except PyErr ℝ :=
  match lookup band gamma0, lookup band efficiency, lookup band sky_mu with
  | some g0, some eff, some sky =>
    let rate_sci : ℝ := g0 * N * eff * (10 : ℝ) ^ (-0.4 * sci_mu)
    let rate_sky : ℝ := g0 * N * eff * (10 : ℝ) ^ (-0.4 * sky)
    if sub_exp_time = 0 then .error .zeroDivisionError else
    let number_subs : ℤ := ⌈total_exp_time / sub_exp_time⌉
    let t : ℝ :=
      if round_up ∧ total_exp_time ≠ (number_subs : ℝ) * sub_exp_time
      then (number_subs : ℝ) * sub_exp_time else total_exp_time
    if number_subs < 0 then .error .valueError else
    let signal := rate_sci * t
    let sky_counts := rate_sky * t
    let dark_counts := dark_current * t
    let total_read_noise := Real.sqrt (number_subs : ℝ) * read_noise
    let radicand := signal + sky_counts + dark_counts + total_read_noise ^ 2
    if radicand < 0 then .error .valueError else
    let noise := Real.sqrt radicand
    if noise = 0 then .error .zeroDivisionError else
    .ok (binning * signal / noise)
  | _, _, _ => .error .keyError

/-- The value snr computes when no error occurs, with the three looked-up
band constants passed explicitly.  Pure exact real arithmetic; by the Lean
convention division by zero yields 0, so a zero-exposure call yields 0. -/
noncomputable def snrVal (g0 eff sky : ℝ)
    (sci_mu total_exp_time sub_exp_time binning N : ℝ) (round_up : Bool) : ℝ :=
  let rate_sci : ℝ := g0 * N * eff * (10 : ℝ) ^ (-0.4 * sci_mu)
  let rate_sky : ℝ := g0 * N * eff * (10 : ℝ) ^ (-0.4 * sky)
  let number_subs : ℤ := ⌈total_exp_time / sub_exp_time⌉
  let t : ℝ :=
    if round_up ∧ total_exp_time ≠ (number_subs : ℝ) * sub_exp_time
    then (number_subs : ℝ) * sub_exp_time else total_exp_time
  let signal := rate_sci * t
  let noise :=
    Real.sqrt (signal + rate_sky * t + dark_current * t +
      (Real.sqrt (number_subs : ℝ) * read_noise) ^ 2)
  binning * signal / noise

/-- One stopping test of the while loop of etc: the loop leaves sub-exposure
count n either when the recomputed SNR is at least the target or when the
recomputation raises, in which case etc itself raises. -/
def loopStop (f : ℤ → Except PyErr ℝ) (tgt : ℝ) (n : ℤ) : Prop :=
  match f n with
  | .error _ => True
  | .ok v => ¬ v < tgt

open Classical in
/-- Translation of the etc function of SNR.py.  The analytic estimate, the
initial ceiling and the correction loop follow the source; the while loop is
rendered as the least number of extra sub-exposures after which its guard
fails (or its body raises), and an unreachable nonTermination error when no
such number exists. -/
noncomputable def etc (sci_mu : ℝ) (band : String) (snr_target : ℝ)
    (sub_exp_time : ℝ := 600) (binning : ℝ := 1) (N : ℝ := 1) :
    Except PyErr (ℝ × ℤ) :=
  if binning = 0 then .error .zeroDivisionError else
  let tgt := snr_target / binning
  match lookup band gamma0, lookup band efficiency, lookup band sky_mu with
  | some g0, some eff, some sky =>
    let rate_sci : ℝ := g0 * N * eff * (10 : ℝ) ^ (-0.4 * sci_mu)
    let rate_sky : ℝ := g0 * N * eff * (10 : ℝ) ^ (-0.4 * sky)
    if sub_exp_time = 0 then .error .zeroDivisionError else
    if rate_sci = 0 then .error .zeroDivisionError else
    let total_exp_time :=
      tgt ^ 2 * (rate_sci + rate_sky + dark_current + read_noise ^ 2 / sub_exp_time) /
        rate_sci ^ 2
    let n0 : ℤ := ⌈total_exp_time / sub_exp_time⌉
    let f : ℤ → Except PyErr ℝ := fun n =>
      snr sci_mu band ((n : ℝ) * sub_exp_time) sub_exp_time binning N false
    if h : ∃ k : ℕ, loopStop f tgt (n0 + k) then
      let n := n0 + (Nat.find h : ℤ)
      match f n with
      | .error e => .error e
      | .ok _ => .ok ((n : ℝ) * sub_exp_time, n)
    else .error .nonTermination
  | _, _, _ => .error .keyError

/-- Translation of the limit function of SNR.py: quadratic in the science
count rate solved by the positive root, then converted back to a surface
brightness.  Error layer as in snr, with math.log10 of a non-positive number
raising ValueError. -/
noncomputable def limit (band : String) (total_exp_time snr_target : ℝ)
    (sub_exp_time : ℝ := 600) (binning : ℝ := 1) (N : ℝ := 1)
    (round_up : Bool := true) : Except PyErr ℝ :=
  if binning = 0 then .error .zeroDivisionError else
  let tgt := snr_target / binning
  match lookup band gamma0, lookup band efficiency, lookup band sky_mu with
  | some g0, some eff, some sky =>
    let rate_sky : ℝ := g0 * N * eff * (10 : ℝ) ^ (-0.4 * sky)
    if sub_exp_time = 0 then .error .zeroDivisionError else
    let number_subs : ℤ := ⌈total_exp_time / sub_exp_time⌉
    let t : ℝ :=
      if round_up ∧ total_exp_time ≠ (number_subs : ℝ) * sub_exp_time
      then (number_subs : ℝ) * sub_exp_time else total_exp_time
    if number_subs < 0 then .error .valueError else
    let sky_counts := rate_sky * t
    let dark_counts := dark_current * t
    let total_read_noise := Real.sqrt (number_subs : ℝ) * read_noise
    let a := t ^ 2
    let b := -tgt ^ 2 * t
    let c := -tgt ^ 2 * (sky_counts + dark_counts + total_read_noise ^ 2)
    if b ^ 2 - 4 * a * c < 0 then .error .valueError else
    if a = 0 then .error .zeroDivisionError else
    let rate_sci := (-b + Real.sqrt (b ^ 2 - 4 * a * c)) / (2 * a)
    if g0 * N * eff = 0 then .error .zeroDivisionError else
    if rate_sci / (g0 * N * eff) ≤ 0 then .error .valueError else
    .ok (-2.5 * Real.logb 10 (rate_sci / (g0 * N * eff)))
  | _, _, _ => .error .keyError

/-- Discriminant of the brightness-limit quadratic, exactly as limit builds
it from its inputs (after target rescaling and sub-exposure accounting). -/
noncomputable def limitDisc (g0 eff sky : ℝ)
    (total_exp_time snr_target sub_exp_time binning N : ℝ) (round_up : Bool) : ℝ :=
  let tgt := snr_target / binning
  let rate_sky : ℝ := g0 * N * eff * (10 : ℝ) ^ (-0.4 * sky)
  let number_subs : ℤ := ⌈total_exp_time / sub_exp_time⌉
  let t : ℝ :=
    if round_up ∧ total_exp_time ≠ (number_subs : ℝ) * sub_exp_time
    then (number_subs : ℝ) * sub_exp_time else total_exp_time
  let a := t ^ 2
  let b := -tgt ^ 2 * t
  let c := -tgt ^ 2 *
    (rate_sky * t + dark_current * t + (Real.sqrt (number_subs : ℝ) * read_noise) ^ 2)
  b ^ 2 - 4 * a * c

lemma lookup_gamma0_g : lookup "g" gamma0 = some 1.79e9 := by
  simp [lookup, gamma0]

lemma lookup_gamma0_r : lookup "r" gamma0 = some 1.16e9 := by
  simp [lookup, gamma0]

lemma lookup_efficiency_g : lookup "g" efficiency = some 0.34 := by
  simp [lookup, efficiency]

lemma lookup_efficiency_r : lookup "r" efficiency = some 0.35 := by
  simp [lookup, efficiency]

lemma lookup_sky_mu_g : lookup "g" sky_mu = some 22.0 := by
  simp [lookup, sky_mu]

lemma lookup_sky_mu_r : lookup "r" sky_mu = some 21.0 := by
  simp [lookup, sky_mu]

lemma lookup_gamma0_none {band : String} (hg : band ≠ "g") (hr : band ≠ "r") :
    lookup band gamma0 = none := by
  simp [lookup, gamma0, hg, hr]

/-- Any value read from the gamma0 table is one of the two entries; in
particular the band is g or r. -/
lemma lookup_gamma0_cases {band : String} {v : ℝ}
    (h : lookup band gamma0 = some v) :
    (band = "g" ∧ v = 1.79e9) ∨ (band = "r" ∧ v = 1.16e9) := by
  by_cases hg : band = "g"
  · subst hg
    rw [lookup_gamma0_g] at h
    exact Or.inl ⟨rfl, (Option.some.inj h).symm⟩
  · by_cases hr : band = "r"
    · subst hr
      rw [lookup_gamma0_r] at h
      exact Or.inr ⟨rfl, (Option.some.inj h).symm⟩
    · rw [lookup_gamma0_none hg hr] at h
      exact Option.noConfusion h

lemma lookup_efficiency_cases {band : String} {v : ℝ}
    (h : lookup band efficiency = some v) :
    (band = "g" ∧ v = 0.34) ∨ (band = "r" ∧ v = 0.35) := by
  by_cases hg : band = "g"
  · subst hg
    rw [lookup_efficiency_g] at h
    exact Or.inl ⟨rfl, (Option.some.inj h).symm⟩
  · by_cases hr : band = "r"
    · subst hr
      rw [lookup_efficiency_r] at h
      exact Or.inr ⟨rfl, (Option.some.inj h).symm⟩
    · have : lookup band efficiency = none := by
        simp [lookup, efficiency, hg, hr]
      rw [this] at h
      exact Option.noConfusion h

/-- Every gamma0 table entry is positive. -/
lemma lookup_gamma0_pos {band : String} {v : ℝ}
    (h : lookup band gamma0 = some v) : 0 < v := by
  rcases lookup_gamma0_cases h with ⟨_, hv⟩ | ⟨_, hv⟩ <;> rw [hv] <;> norm_num

/-- Every efficiency table entry is positive. -/
lemma lookup_efficiency_pos {band : String} {v : ℝ}
    (h : lookup band efficiency = some v) : 0 < v := by
  rcases lookup_efficiency_cases h with ⟨_, hv⟩ | ⟨_, hv⟩ <;> rw [hv] <;> norm_num

lemma dark_current_pos : (0 : ℝ) < dark_current := by norm_num [dark_current]

lemma read_noise_pos : (0 : ℝ) < read_noise := by norm_num [read_noise]

/-- The count rate expression is nonnegative whenever N is. -/
lemma rate_nonneg {g0 eff N : ℝ} (x : ℝ) (hg0 : 0 ≤ g0) (heff : 0 ≤ eff) (hN : 0 ≤ N) :
    0 ≤ g0 * N * eff * (10 : ℝ) ^ (-0.4 * x) :=
  mul_nonneg (mul_nonneg (mul_nonneg hg0 hN) heff)
    (Real.rpow_pos_of_pos (by norm_num) _).le

/-- The count rate expression is positive whenever its factors are. -/
lemma rate_pos {g0 eff N : ℝ} (x : ℝ) (hg0 : 0 < g0) (heff : 0 < eff) (hN : 0 < N) :
    0 < g0 * N * eff * (10 : ℝ) ^ (-0.4 * x) :=
  mul_pos (mul_pos (mul_pos hg0 hN) heff) (Real.rpow_pos_of_pos (by norm_num) _)

/-- On a known band, with positive exposure times and nonnegative N, snr hits
no error branch and returns exactly the value snrVal. -/
lemma snr_eq_ok {band : String} {g0 eff sky : ℝ}
    (hγ : lookup band gamma0 = some g0) (hε : lookup band efficiency = some eff)
    (hσ : lookup band sky_mu = some sky) (hg0 : 0 < g0) (heff : 0 < eff)
    {sci_mu t sub b N : ℝ} {ru : Bool} (hN : 0 ≤ N) (ht : 0 < t) (hsub : 0 < sub) :
    snr sci_mu band t sub b N ru = .ok (snrVal g0 eff sky sci_mu t sub b N ru) := by
  have hn : (0 : ℤ) < ⌈t / sub⌉ := Int.ceil_pos.mpr (div_pos ht hsub)
  have hnR : (0 : ℝ) < (⌈t / sub⌉ : ℝ) := by exact_mod_cast hn
  have hsci := rate_nonneg sci_mu hg0.le heff.le hN
  have hsky := rate_nonneg sky hg0.le heff.le hN
  simp only [snr, hγ, hε, hσ, snrVal]
  rw [if_neg hsub.ne', if_neg (not_lt.mpr hn.le)]
  have hT : 0 < (if ru = true ∧ t ≠ (⌈t / sub⌉ : ℝ) * sub
      then (⌈t / sub⌉ : ℝ) * sub else t) := by
    split
    · exact mul_pos hnR hsub
    · exact ht
  set T : ℝ := (if ru = true ∧ t ≠ (⌈t / sub⌉ : ℝ) * sub
      then (⌈t / sub⌉ : ℝ) * sub else t) with hTdef
  have hrad : 0 < g0 * N * eff * (10 : ℝ) ^ (-0.4 * sci_mu) * T +
      g0 * N * eff * (10 : ℝ) ^ (-0.4 * sky) * T + dark_current * T +
      (Real.sqrt (⌈t / sub⌉ : ℝ) * read_noise) ^ 2 := by
    have h1 := mul_nonneg hsci hT.le
    have h2 := mul_nonneg hsky hT.le
    have h3 := mul_pos dark_current_pos hT
    have h4 := sq_nonneg (Real.sqrt (⌈t / sub⌉ : ℝ) * read_noise)
    linarith
  rw [if_neg (not_lt.mpr hrad.le), if_neg (Real.sqrt_pos.mpr hrad).ne']

/-- The science or sky count rate, as a named abbreviation for statements. -/
noncomputable def rateOf (g0 eff N x : ℝ) : ℝ := g0 * N * eff * (10 : ℝ) ^ (-0.4 * x)

/-- Total noise accumulation rate per second of exposure used by the closed
form of snr at an exact multiple of the sub-exposure time: science shot
noise, sky shot noise, dark current and the per-sub read noise amortised
over one sub-exposure. -/
noncomputable def noiseRate (g0 eff sky mu sub N : ℝ) : ℝ :=
  rateOf g0 eff N mu + rateOf g0 eff N sky + dark_current + read_noise ^ 2 / sub

lemma noiseRate_pos (sky mu : ℝ) {g0 eff sub N : ℝ} (hg0 : 0 < g0) (heff : 0 < eff)
    (hN : 0 ≤ N) (hsub : 0 < sub) : 0 < noiseRate g0 eff sky mu sub N := by
  have h1 := rate_nonneg mu hg0.le heff.le hN
  have h2 := rate_nonneg sky hg0.le heff.le hN
  have h3 := dark_current_pos
  have h4 : 0 < read_noise ^ 2 / sub :=
    div_pos (pow_pos read_noise_pos 2) hsub
  unfold noiseRate rateOf
  unfold rateOf at h1 h2
  linarith

/-- A zero-second exposure yields a zero SNR value (0 / 0 = 0 in the exact
real model). -/
lemma snrVal_zero (g0 eff sky mu sub b N : ℝ) :
    snrVal g0 eff sky mu 0 sub b N false = 0 := by
  simp [snrVal]

/-- Closed form of the snr value at an exact multiple of the sub-exposure
time with rounding disabled: the SNR grows like the square root of the
total exposure time. -/
lemma snrVal_sub_mult {g0 eff sky mu sub b N : ℝ} {n : ℤ}
    (hg0 : 0 < g0) (heff : 0 < eff) (hN : 0 ≤ N) (hsub : 0 < sub) (hn : 1 ≤ n) :
    snrVal g0 eff sky mu ((n : ℝ) * sub) sub b N false =
      b * rateOf g0 eff N mu * Real.sqrt ((n : ℝ) * sub) /
        Real.sqrt (noiseRate g0 eff sky mu sub N) := by
  have hnR : (1 : ℝ) ≤ (n : ℝ) := by exact_mod_cast hn
  have hnR0 : (0 : ℝ) < (n : ℝ) := lt_of_lt_of_le one_pos hnR
  have hT : 0 < (n : ℝ) * sub := mul_pos hnR0 hsub
  have hceil : ⌈((n : ℝ) * sub) / sub⌉ = n := by
    rw [mul_div_assoc, div_self hsub.ne', mul_one, Int.ceil_intCast]
  have hC := noiseRate_pos sky mu hg0 heff hN hsub
  have hsC : 0 < Real.sqrt (noiseRate g0 eff sky mu sub N) := Real.sqrt_pos.mpr hC
  have hsT : 0 < Real.sqrt ((n : ℝ) * sub) := Real.sqrt_pos.mpr hT
  simp only [snrVal, hceil]
  rw [if_neg (by simp)]
  have hsqn : (Real.sqrt (n : ℝ) * read_noise) ^ 2 = (n : ℝ) * read_noise ^ 2 := by
    rw [mul_pow, Real.sq_sqrt hnR0.le]
  rw [hsqn]
  have key : rateOf g0 eff N mu * ((n : ℝ) * sub) + rateOf g0 eff N sky * ((n : ℝ) * sub) +
      dark_current * ((n : ℝ) * sub) + (n : ℝ) * read_noise ^ 2 =
      ((n : ℝ) * sub) * noiseRate g0 eff sky mu sub N := by
    unfold noiseRate rateOf
    field_simp
    ring
  unfold rateOf at key
  rw [key, Real.sqrt_mul hT.le]
  rw [div_eq_div_iff (mul_pos hsT hsC).ne' hsC.ne']
  unfold rateOf
  linear_combination (-(b * (g0 * N * eff * (10 : ℝ) ^ (-0.4 * mu))) *
    Real.sqrt (noiseRate g0 eff sky mu sub N)) * Real.mul_self_sqrt hT.le

/-- With rounding enabled the effective exposure time is always the ceiling
times the sub-exposure time, whether or not the requested time was already
an exact multiple. -/
lemma roundup_ite_true (t x : ℝ) :
    (if True ∧ t ≠ x then x else t) = x := by
  split_ifs with h
  · rfl
  · push_neg at h
    exact h trivial

/-- With rounding enabled, snr computes the same value as an exposure of
exactly ceil(t / sub) sub-exposures with rounding disabled. -/
lemma snrVal_roundup_eq (g0 eff sky mu t sub b N : ℝ) (hsub : sub ≠ 0) :
    snrVal g0 eff sky mu t sub b N true =
      snrVal g0 eff sky mu ((⌈t / sub⌉ : ℝ) * sub) sub b N false := by
  have hceil : ⌈((⌈t / sub⌉ : ℝ) * sub) / sub⌉ = ⌈t / sub⌉ := by
    rw [mul_div_assoc, div_self hsub, mul_one, Int.ceil_intCast]
  simp only [snrVal, hceil]
  rw [roundup_ite_true]
  simp only [ite_self]

/-- Closed form of the snr value with rounding enabled: only the ceiling of
total over sub exposure time matters and the SNR grows like the square root
of the effective exposure time. -/
lemma snrVal_roundup_form {g0 eff sky mu sub b N : ℝ} (t : ℝ)
    (hg0 : 0 < g0) (heff : 0 < eff) (hN : 0 ≤ N) (hsub : 0 < sub)
    (ht : 0 < t) :
    snrVal g0 eff sky mu t sub b N true =
      b * rateOf g0 eff N mu * Real.sqrt ((⌈t / sub⌉ : ℝ) * sub) /
        Real.sqrt (noiseRate g0 eff sky mu sub N) := by
  have hn : (1 : ℤ) ≤ ⌈t / sub⌉ := Int.ceil_pos.mpr (div_pos ht hsub)
  rw [snrVal_roundup_eq g0 eff sky mu t sub b N hsub.ne',
    snrVal_sub_mult hg0 heff hN hsub hn]

/-- The SNR is strictly increasing in the science count rate, all other
noise contributions K held fixed. -/
lemma snr_rate_mono {T K b x y : ℝ} (hT : 0 < T) (hK : 0 < K) (hb : 0 < b)
    (hx : 0 ≤ x) (hxy : x < y) :
    b * (x * T) / Real.sqrt (x * T + K) < b * (y * T) / Real.sqrt (y * T + K) := by
  have hy : 0 < y := lt_of_le_of_lt hx hxy
  have hxK : 0 < x * T + K := by nlinarith
  have hyK : 0 < y * T + K := by nlinarith
  have hsx : 0 < Real.sqrt (x * T + K) := Real.sqrt_pos.mpr hxK
  have hsy : 0 < Real.sqrt (y * T + K) := Real.sqrt_pos.mpr hyK
  rw [div_lt_div_iff₀ hsx hsy]
  have key : x * Real.sqrt (y * T + K) < y * Real.sqrt (x * T + K) := by
    rcases eq_or_lt_of_le hx with hx0 | hx0
    · rw [← hx0]
      simpa using mul_pos hy (Real.sqrt_pos.mpr hK)
    · have hsq : (x * Real.sqrt (y * T + K)) ^ 2 < (y * Real.sqrt (x * T + K)) ^ 2 := by
        rw [mul_pow, mul_pow, Real.sq_sqrt hxK.le, Real.sq_sqrt hyK.le]
        nlinarith [mul_pos (mul_pos (mul_pos hx0 hy) hT) (sub_pos.mpr hxy),
          mul_pos hK (mul_pos (sub_pos.mpr hxy) (by linarith : (0 : ℝ) < y + x))]
      exact lt_of_pow_lt_pow_left₀ 2 (mul_nonneg hy.le hsx.le) hsq
  calc b * (x * T) * Real.sqrt (y * T + K)
      = (b * T) * (x * Real.sqrt (y * T + K)) := by ring
    _ < (b * T) * (y * Real.sqrt (x * T + K)) :=
        mul_lt_mul_of_pos_left key (mul_pos hb hT)
    _ = b * (y * T) * Real.sqrt (x * T + K) := by ring

lemma roundup_ite_false (t x : ℝ) :
    (if ((false : Bool) = true) ∧ t ≠ x then x else t) = t :=
  if_neg (by simp)

lemma rateOf_nonneg {g0 eff N : ℝ} (x : ℝ) (hg0 : 0 ≤ g0) (heff : 0 ≤ eff)
    (hN : 0 ≤ N) : 0 ≤ rateOf g0 eff N x := rate_nonneg x hg0 heff hN

lemma rateOf_pos {g0 eff N : ℝ} (x : ℝ) (hg0 : 0 < g0) (heff : 0 < eff)
    (hN : 0 < N) : 0 < rateOf g0 eff N x := rate_pos x hg0 heff hN

/-- The count rate is strictly decreasing in the surface brightness
magnitude (fainter is dimmer). -/
lemma rateOf_strict_anti {g0 eff N : ℝ} (hg0 : 0 < g0) (heff : 0 < eff)
    (hN0 : 0 < N) {mu1 mu2 : ℝ} (h : mu1 < mu2) :
    rateOf g0 eff N mu2 < rateOf g0 eff N mu1 := by
  unfold rateOf
  have hexp : (10 : ℝ) ^ (-0.4 * mu2) < (10 : ℝ) ^ (-0.4 * mu1) :=
    (Real.rpow_lt_rpow_left_iff (by norm_num)).mpr (by linarith)
  exact mul_lt_mul_of_pos_left hexp (by positivity)

/-- Shape of the snr value with rounding disabled. -/
lemma snrVal_false_eq (g0 eff sky mu t sub b N : ℝ) :
    snrVal g0 eff sky mu t sub b N false =
      b * (rateOf g0 eff N mu * t) /
        Real.sqrt (rateOf g0 eff N mu * t + rateOf g0 eff N sky * t +
          dark_current * t + (Real.sqrt (⌈t / sub⌉ : ℝ) * read_noise) ^ 2) := by
  simp only [snrVal, rateOf]
  rw [roundup_ite_false]

/-- Shape of the snr value with rounding enabled: the effective exposure
time is the ceiling of requested over sub times the sub-exposure time. -/
lemma snrVal_true_eq (g0 eff sky mu t sub b N : ℝ) :
    snrVal g0 eff sky mu t sub b N true =
      b * (rateOf g0 eff N mu * ((⌈t / sub⌉ : ℝ) * sub)) /
        Real.sqrt (rateOf g0 eff N mu * ((⌈t / sub⌉ : ℝ) * sub) +
          rateOf g0 eff N sky * ((⌈t / sub⌉ : ℝ) * sub) +
          dark_current * ((⌈t / sub⌉ : ℝ) * sub) +
          (Real.sqrt (⌈t / sub⌉ : ℝ) * read_noise) ^ 2) := by
  simp only [snrVal, rateOf]
  rw [roundup_ite_true]

/-- Claim C5.  On a known band, with positive sub-exposure time and N at
least 1, the snr value is monotonically increasing in the total exposure
time, strictly increasing in the binning factor, and strictly decreasing
in the source surface brightness magnitude. -/
theorem snr_monotonicity (band : String) (g0 eff sky sub N : ℝ)
    (hγ : lookup band gamma0 = some g0) (hε : lookup band efficiency = some eff)
    (hσ : lookup band sky_mu = some sky) (hsub : 0 < sub) (hN : 1 ≤ N) :
    (∀ mu b t1 t2, 0 ≤ b → 0 < t1 → t1 ≤ t2 →
      snrVal g0 eff sky mu t1 sub b N true ≤ snrVal g0 eff sky mu t2 sub b N true) ∧
    (∀ mu t ru b1 b2, 0 < t → b1 < b2 →
      snrVal g0 eff sky mu t sub b1 N ru < snrVal g0 eff sky mu t sub b2 N ru) ∧
    (∀ t ru b mu1 mu2, 0 < t → 0 < b → mu1 < mu2 →
      snrVal g0 eff sky mu2 t sub b N ru < snrVal g0 eff sky mu1 t sub b N ru) := by
  have hg0 := lookup_gamma0_pos hγ
  have heff := lookup_efficiency_pos hε
  have hN0 : 0 < N := lt_of_lt_of_le one_pos hN
  refine ⟨?_, ?_, ?_⟩
  · -- monotone in total exposure time, round-up enabled
    intro mu b t1 t2 hb ht1 ht2
    rw [snrVal_roundup_form t1 hg0 heff hN0.le hsub ht1,
      snrVal_roundup_form t2 hg0 heff hN0.le hsub (lt_of_lt_of_le ht1 ht2)]
    have hcl : (⌈t1 / sub⌉ : ℝ) ≤ (⌈t2 / sub⌉ : ℝ) := by
      exact_mod_cast Int.ceil_le_ceil (by gcongr)
    have hs : Real.sqrt ((⌈t1 / sub⌉ : ℝ) * sub) ≤ Real.sqrt ((⌈t2 / sub⌉ : ℝ) * sub) :=
      Real.sqrt_le_sqrt (mul_le_mul_of_nonneg_right hcl hsub.le)
    have hC : 0 < Real.sqrt (noiseRate g0 eff sky mu sub N) :=
      Real.sqrt_pos.mpr (noiseRate_pos sky mu hg0 heff hN0.le hsub)
    have hnum : b * rateOf g0 eff N mu * Real.sqrt ((⌈t1 / sub⌉ : ℝ) * sub) ≤
        b * rateOf g0 eff N mu * Real.sqrt ((⌈t2 / sub⌉ : ℝ) * sub) :=
      mul_le_mul_of_nonneg_left hs
        (mul_nonneg hb (rateOf_nonneg mu hg0.le heff.le hN0.le))
    exact (div_le_div_right hC).mpr hnum
  · -- strictly increasing in binning
    intro mu t ru b1 b2 ht hb12
    have hr : 0 < rateOf g0 eff N mu := rateOf_pos mu hg0 heff hN0
    have hrs : 0 < rateOf g0 eff N sky := rateOf_pos sky hg0 heff hN0
    cases ru
    · rw [snrVal_false_eq, snrVal_false_eq]
      have hR : 0 < rateOf g0 eff N mu * t + rateOf g0 eff N sky * t +
          dark_current * t + (Real.sqrt (⌈t / sub⌉ : ℝ) * read_noise) ^ 2 := by
        nlinarith [mul_pos hr ht, mul_pos hrs ht, mul_pos dark_current_pos ht,
          sq_nonneg (Real.sqrt (⌈t / sub⌉ : ℝ) * read_noise)]
      have hsR := Real.sqrt_pos.mpr hR
      rw [div_lt_div_iff₀ hsR hsR]
      nlinarith [mul_pos (mul_pos hr ht) hsR]
    · rw [snrVal_true_eq, snrVal_true_eq]
      have hn : (1 : ℤ) ≤ ⌈t / sub⌉ := Int.ceil_pos.mpr (div_pos ht hsub)
      have hT : 0 < (⌈t / sub⌉ : ℝ) * sub := by
        have : (0 : ℝ) < (⌈t / sub⌉ : ℝ) := by exact_mod_cast lt_of_lt_of_le one_pos hn
        exact mul_pos this hsub
      have hR : 0 < rateOf g0 eff N mu * ((⌈t / sub⌉ : ℝ) * sub) +
          rateOf g0 eff N sky * ((⌈t / sub⌉ : ℝ) * sub) +
          dark_current * ((⌈t / sub⌉ : ℝ) * sub) +
          (Real.sqrt (⌈t / sub⌉ : ℝ) * read_noise) ^ 2 := by
        nlinarith [mul_pos hr hT, mul_pos hrs hT, mul_pos dark_current_pos hT,
          sq_nonneg (Real.sqrt (⌈t / sub⌉ : ℝ) * read_noise)]
      have hsR := Real.sqrt_pos.mpr hR
      rw [div_lt_div_iff₀ hsR hsR]
      nlinarith [mul_pos (mul_pos hr hT) hsR]
  · -- strictly decreasing in the source surface brightness
    intro t ru b mu1 mu2 ht hb hmu
    have h21 : rateOf g0 eff N mu2 < rateOf g0 eff N mu1 :=
      rateOf_strict_anti hg0 heff hN0 hmu
    have hrs : 0 < rateOf g0 eff N sky := rateOf_pos sky hg0 heff hN0
    have h2 : 0 ≤ rateOf g0 eff N mu2 := rateOf_nonneg mu2 hg0.le heff.le hN0.le
    cases ru
    · rw [snrVal_false_eq, snrVal_false_eq]
      have hassoc : ∀ x : ℝ, x * t + rateOf g0 eff N sky * t + dark_current * t +
          (Real.sqrt (⌈t / sub⌉ : ℝ) * read_noise) ^ 2 =
          x * t + (rateOf g0 eff N sky * t + dark_current * t +
            (Real.sqrt (⌈t / sub⌉ : ℝ) * read_noise) ^ 2) := fun x => by ring
      rw [hassoc, hassoc]
      have hK : 0 < rateOf g0 eff N sky * t + dark_current * t +
          (Real.sqrt (⌈t / sub⌉ : ℝ) * read_noise) ^ 2 := by
        nlinarith [mul_pos hrs ht, mul_pos dark_current_pos ht,
          sq_nonneg (Real.sqrt (⌈t / sub⌉ : ℝ) * read_noise)]
      exact snr_rate_mono ht hK hb h2 h21
    · rw [snrVal_true_eq, snrVal_true_eq]
      have hn : (1 : ℤ) ≤ ⌈t / sub⌉ := Int.ceil_pos.mpr (div_pos ht hsub)
      have hT : 0 < (⌈t / sub⌉ : ℝ) * sub := by
        have : (0 : ℝ) < (⌈t / sub⌉ : ℝ) := by exact_mod_cast lt_of_lt_of_le one_pos hn
        exact mul_pos this hsub
      have hassoc : ∀ x : ℝ, x * ((⌈t / sub⌉ : ℝ) * sub) +
          rateOf g0 eff N sky * ((⌈t / sub⌉ : ℝ) * sub) +
          dark_current * ((⌈t / sub⌉ : ℝ) * sub) +
          (Real.sqrt (⌈t / sub⌉ : ℝ) * read_noise) ^ 2 =
          x * ((⌈t / sub⌉ : ℝ) * sub) +
          (rateOf g0 eff N sky * ((⌈t / sub⌉ : ℝ) * sub) +
            dark_current * ((⌈t / sub⌉ : ℝ) * sub) +
            (Real.sqrt (⌈t / sub⌉ : ℝ) * read_noise) ^ 2) := fun x => by ring
      rw [hassoc, hassoc]
      have hK : 0 < rateOf g0 eff N sky * ((⌈t / sub⌉ : ℝ) * sub) +
          dark_current * ((⌈t / sub⌉ : ℝ) * sub) +
          (Real.sqrt (⌈t / sub⌉ : ℝ) * read_noise) ^ 2 := by
        nlinarith [mul_pos hrs hT, mul_pos dark_current_pos hT,
          sq_nonneg (Real.sqrt (⌈t / sub⌉ : ℝ) * read_noise)]
      exact snr_rate_mono hT hK hb h2 h21

/-- Witness for claim C5, on the g band with one hour against two hours of
exposure, binning 1 against 2, and magnitude 22 against 23. -/
theorem snr_monotonicity_witness :
    (snrVal 1.79e9 0.34 22.0 22 600 600 1 1 true ≤
      snrVal 1.79e9 0.34 22.0 22 1200 600 1 1 true) ∧
    (snrVal 1.79e9 0.34 22.0 22 600 600 1 1 true <
      snrVal 1.79e9 0.34 22.0 22 600 600 2 1 true) ∧
    (snrVal 1.79e9 0.34 22.0 23 600 600 1 1 true <
      snrVal 1.79e9 0.34 22.0 22 600 600 1 1 true) := by
  obtain ⟨h1, h2, h3⟩ := snr_monotonicity "g" 1.79e9 0.34 22.0 600 1
    lookup_gamma0_g lookup_efficiency_g lookup_sky_mu_g (by norm_num) le_rfl
  exact ⟨h1 22 1 600 1200 (by norm_num) (by norm_num) (by norm_num),
    h2 22 600 true 1 2 (by norm_num) (by norm_num),
    h3 600 true 1 22 23 (by norm_num) (by norm_num) (by norm_num)⟩

/-- With rounding enabled the result of snr is a function of the ceiling of
total over sub exposure time alone (all other inputs fixed). -/
lemma snr_roundup_congr (mu : ℝ) (band : String) {t1 t2 sub : ℝ} (b N : ℝ)
    (hc : ⌈t1 / sub⌉ = ⌈t2 / sub⌉) :
    snr mu band t1 sub b N true = snr mu band t2 sub b N true := by
  cases hγ : lookup band gamma0 with
  | none => simp only [snr, hγ]
  | some g0 =>
    cases hε : lookup band efficiency with
    | none => simp only [snr, hγ, hε]
    | some eff =>
      cases hσ : lookup band sky_mu with
      | none => simp only [snr, hγ, hε, hσ]
      | some sky =>
        simp only [snr, hγ, hε, hσ]
        by_cases hsub : sub = 0
        · rw [if_pos hsub, if_pos hsub]
        · rw [if_neg hsub, if_neg hsub, hc, roundup_ite_true, roundup_ite_true]

/-- Claim C10.  With rounding enabled, snr depends on the requested total
exposure time only through the ceiling of total over sub exposure time: two
positive requested times with the same ceiling produce identical results. -/
theorem snr_ceil_determines (mu : ℝ) (band : String) (t1 t2 sub b N : ℝ)
    (h1 : 0 < t1) (h2 : 0 < t2) (hc : ⌈t1 / sub⌉ = ⌈t2 / sub⌉) :
    snr mu band t1 sub b N true = snr mu band t2 sub b N true :=
  snr_roundup_congr mu band b N hc

/-- Witness for claim C10: 100 s and 110 s at a 30 s sub-exposure both round
to 4 sub-exposures and give identical snr results. -/
theorem snr_ceil_determines_witness :
    (0 : ℝ) < 100 ∧ (0 : ℝ) < 110 ∧ ⌈(100 : ℝ) / 30⌉ = ⌈(110 : ℝ) / 30⌉ ∧
      snr 22 "g" 100 30 1 1 true = snr 22 "g" 110 30 1 1 true := by
  have hc : ⌈(100 : ℝ) / 30⌉ = ⌈(110 : ℝ) / 30⌉ := by
    rw [show ⌈(100 : ℝ) / 30⌉ = 4 by rw [Int.ceil_eq_iff] <;> norm_num,
      show ⌈(110 : ℝ) / 30⌉ = 4 by rw [Int.ceil_eq_iff] <;> norm_num]
  exact ⟨by norm_num, by norm_num, hc,
    snr_ceil_determines 22 "g" 100 110 30 1 1 (by norm_num) (by norm_num) hc⟩

/-- Claim C9.  A 100 s request at a 30 s sub-exposure with rounding enabled
uses 4 sub-exposures and an effective total exposure time of 120 s: the
result is identical to a 120 s request, for every surface brightness, every
band, and every binning and N. -/
theorem snr_rounding_hundred :
    ⌈(100 : ℝ) / 30⌉ = 4 ∧ (⌈(100 : ℝ) / 30⌉ : ℝ) * 30 = 120 ∧
      ∀ (mu : ℝ) (band : String) (b N : ℝ),
        snr mu band 100 30 b N true = snr mu band 120 30 b N true := by
  have h4 : ⌈(100 : ℝ) / 30⌉ = 4 := by rw [Int.ceil_eq_iff] <;> norm_num
  refine ⟨h4, by rw [h4]; norm_num, fun mu band b N => snr_roundup_congr mu band b N ?_⟩
  rw [h4, show ⌈(120 : ℝ) / 30⌉ = 4 by rw [Int.ceil_eq_iff] <;> norm_num]

/-- Modelled from the words of claim C1: the SNR as binning times signal
over noise, with the science and sky rates from the Dragonfly conversion,
the sub-exposure count as a ceiling, the round-up rule on the effective
total exposure time, and the read noise entering the noise budget as
number_subs times read_noise squared. -/
noncomputable def snrSpec (g0 eff sky : ℝ) (mu t sub b N : ℝ) (ru : Bool) : ℝ :=
  let rate_sci := g0 * N * eff * (10 : ℝ) ^ (-0.4 * mu)
  let rate_sky := g0 * N * eff * (10 : ℝ) ^ (-0.4 * sky)
  let number_subs : ℤ := ⌈t / sub⌉
  let teff : ℝ :=
    if ru ∧ t ≠ (number_subs : ℝ) * sub then (number_subs : ℝ) * sub else t
  let signal := rate_sci * teff
  let noise := Real.sqrt (signal + rate_sky * teff + dark_current * teff +
    (number_subs : ℝ) * read_noise ^ 2)
  b * signal / noise

/-- Claim C1.  For a band with table entries, positive exposure times and
nonnegative N, snr returns exactly the formula of the specification. -/
theorem snr_formula (mu : ℝ) (band : String) (t sub b N : ℝ) (ru : Bool)
    (g0 eff sky : ℝ)
    (hγ : lookup band gamma0 = some g0) (hε : lookup band efficiency = some eff)
    (hσ : lookup band sky_mu = some sky)
    (ht : 0 < t) (hsub : 0 < sub) (hN : 0 ≤ N) :
    snr mu band t sub b N ru = .ok (snrSpec g0 eff sky mu t sub b N ru) := by
  rw [snr_eq_ok hγ hε hσ (lookup_gamma0_pos hγ) (lookup_efficiency_pos hε) hN ht hsub]
  have hn : (0 : ℤ) < ⌈t / sub⌉ := Int.ceil_pos.mpr (div_pos ht hsub)
  have hsq : (Real.sqrt (⌈t / sub⌉ : ℝ) * read_noise) ^ 2 =
      (⌈t / sub⌉ : ℝ) * read_noise ^ 2 := by
    rw [mul_pow, Real.sq_sqrt (le_of_lt (by exact_mod_cast hn))]
  simp only [snrVal, snrSpec, hsq]

/-- Witness for claim C1 on the g band at a 600 s exposure. -/
theorem snr_formula_witness :
    (0 : ℝ) < 600 ∧ (0 : ℝ) ≤ 1 ∧
      snr 22 "g" 600 600 1 1 true = .ok (snrSpec 1.79e9 0.34 22.0 22 600 600 1 1 true) :=
  ⟨by norm_num, by norm_num,
    snr_formula 22 "g" 600 600 1 1 true 1.79e9 0.34 22.0
      lookup_gamma0_g lookup_efficiency_g lookup_sky_mu_g
      (by norm_num) (by norm_num) (by norm_num)⟩

lemma lookup_efficiency_none {band : String} (hg : band ≠ "g") (hr : band ≠ "r") :
    lookup band efficiency = none := by
  simp [lookup, efficiency, hg, hr]

lemma lookup_sky_mu_none {band : String} (hg : band ≠ "g") (hr : band ≠ "r") :
    lookup band sky_mu = none := by
  simp [lookup, sky_mu, hg, hr]

/-- Claim C8.  On a band absent from the tables every operation raises the
dictionary lookup error and returns no numeric result (for etc and limit,
provided the division by binning performed before the lookup succeeds). -/
theorem unknown_band_errors (band : String) (hg : band ≠ "g") (hr : band ≠ "r") :
    (∀ mu t sub b N ru, snr mu band t sub b N ru = .error .keyError) ∧
    (∀ mu tgt sub b N, b ≠ 0 → etc mu band tgt sub b N = .error .keyError) ∧
    (∀ t tgt sub b N ru, b ≠ 0 → limit band t tgt sub b N ru = .error .keyError) := by
  have h0 := lookup_gamma0_none hg hr
  have h1 := lookup_efficiency_none hg hr
  have h2 := lookup_sky_mu_none hg hr
  refine ⟨fun mu t sub b N ru => ?_, fun mu tgt sub b N hb => ?_,
    fun t tgt sub b N ru hb => ?_⟩
  · simp only [snr, h0, h1, h2]
  · simp only [etc, h0, h1, h2]
    rw [if_neg hb]
  · simp only [limit, h0, h1, h2]
    rw [if_neg hb]

/-- Witness for claim C8 on the unknown band u. -/
theorem unknown_band_errors_witness :
    ("u" ≠ "g" ∧ "u" ≠ "r") ∧
      snr 22 "u" 600 600 1 1 true = .error .keyError ∧
      etc 22 "u" 5 600 1 1 = .error .keyError ∧
      limit "u" 600 5 600 1 1 true = .error .keyError := by
  obtain ⟨h1, h2, h3⟩ := unknown_band_errors "u" (by decide) (by decide)
  exact ⟨⟨by decide, by decide⟩, h1 22 600 600 1 1 true,
    h2 22 5 600 1 1 (by norm_num), h3 600 5 600 1 1 true (by norm_num)⟩

/-- Counterexample for claim C7: snr performs no validation of the binning
factor.  With binning 0 (a non-positive value) and otherwise valid inputs it
returns the numeric value 0 instead of failing. -/
theorem snr_no_binning_validation :
    snr 22 "g" 600 600 0 1 true = .ok 0 := by
  rw [snr_eq_ok lookup_gamma0_g lookup_efficiency_g lookup_sky_mu_g
    (by norm_num) (by norm_num) (by norm_num) (by norm_num) (by norm_num)]
  have : snrVal 1.79e9 0.34 22.0 22 600 600 0 1 true = 0 := by
    simp [snrVal]
  rw [this]

/-- Claim C7, amended.  On a known band snr raises a runtime error for every
non-positive total exposure time (with positive sub-exposure time and
nonnegative N) and for a zero sub-exposure time, but it performs no
validation of binning or N: with positive times it returns a numeric value
for every binning and every nonnegative N, including binning equal to 0 and
N equal to 0. -/
theorem snr_input_validation (band : String) (g0 eff sky : ℝ)
    (hγ : lookup band gamma0 = some g0) (hε : lookup band efficiency = some eff)
    (hσ : lookup band sky_mu = some sky) :
    (∀ mu t sub b N ru, 0 < t → 0 < sub → 0 ≤ N →
      ∃ v, snr mu band t sub b N ru = .ok v) ∧
    (∀ mu t sub b N ru, t ≤ 0 → 0 < sub → 0 ≤ N →
      ∃ e, snr mu band t sub b N ru = .error e) ∧
    (∀ mu t b N ru, snr mu band t 0 b N ru = .error .zeroDivisionError) := by
  have hg0 := lookup_gamma0_pos hγ
  have heff := lookup_efficiency_pos hε
  refine ⟨fun mu t sub b N ru ht hsub hN =>
      ⟨_, snr_eq_ok hγ hε hσ hg0 heff hN ht hsub⟩,
    fun mu t sub b N ru ht hsub hN => ?_, fun mu t b N ru => ?_⟩
  · have hn_le : ⌈t / sub⌉ ≤ (0 : ℤ) := Int.ceil_le.mpr (by
      rw [Int.cast_zero]
      exact div_nonpos_iff.mpr (Or.inr ⟨ht, hsub.le⟩))
    rcases lt_or_eq_of_le hn_le with hn | hn
    · -- negative sub-exposure count: math.sqrt of a negative number raises
      refine ⟨.valueError, ?_⟩
      simp only [snr, hγ, hε, hσ]
      rw [if_neg hsub.ne', if_pos hn]
    · -- zero sub-exposure count
      rcases eq_or_lt_of_le ht with ht0 | ht0
      · -- a zero-second exposure gives noise 0 and a division by zero
        refine ⟨.zeroDivisionError, ?_⟩
        subst ht0
        simp [snr, hγ, hε, hσ, hsub.ne']
      · -- strictly negative requested time
        have hr := rate_nonneg mu hg0.le heff.le hN
        have hrs := rate_nonneg sky hg0.le heff.le hN
        cases ru with
        | true =>
          -- rounded up to a zero-second exposure: division by zero
          refine ⟨.zeroDivisionError, ?_⟩
          simp only [snr, hγ, hε, hσ]
          rw [if_neg hsub.ne', hn]
          rw [if_neg (lt_irrefl (0 : ℤ))]
          simp only [Int.cast_zero, zero_mul]
          rw [roundup_ite_true]
          simp
        | false =>
          -- negative counts under the square root raise
          refine ⟨.valueError, ?_⟩
          simp only [snr, hγ, hε, hσ]
          rw [if_neg hsub.ne', hn]
          rw [if_neg (lt_irrefl (0 : ℤ))]
          simp only [Int.cast_zero, zero_mul]
          rw [roundup_ite_false]
          rw [if_pos ?_]
          simp only [Real.sqrt_zero, zero_mul, add_zero]
          · nlinarith [mul_pos dark_current_pos (neg_pos.mpr ht0),
              mul_nonneg hr (neg_nonneg.mpr ht0.le),
              mul_nonneg hrs (neg_nonneg.mpr ht0.le)]
  · simp only [snr, hγ, hε, hσ]
    exact if_pos trivial

/-- Witness for the amended claim C7 on the g band: a valid call returns a
value, a negative-time call and a zero sub-exposure call raise. -/
theorem snr_input_validation_witness :
    (∃ v, snr 22 "g" 600 600 0 0 true = .ok v) ∧
      (∃ e, snr 22 "g" (-600) 600 1 1 true = .error e) ∧
      snr 22 "g" 600 0 1 1 true = .error .zeroDivisionError := by
  obtain ⟨h1, h2, h3⟩ := snr_input_validation "g" 1.79e9 0.34 22.0
    lookup_gamma0_g lookup_efficiency_g lookup_sky_mu_g
  exact ⟨h1 22 600 600 0 0 true (by norm_num) (by norm_num) le_rfl,
    h2 22 (-600) 600 1 1 true (by norm_num) (by norm_num) (by norm_num),
    h3 22 600 1 1 true⟩

/-- The value limit computes when no error occurs, with the looked-up band
constants passed explicitly. -/
noncomputable def limitVal (g0 eff sky : ℝ) (total_exp_time snr_target : ℝ)
    (sub_exp_time binning N : ℝ) (round_up : Bool) : ℝ :=
  let tgt := snr_target / binning
  let rate_sky : ℝ := g0 * N * eff * (10 : ℝ) ^ (-0.4 * sky)
  let number_subs : ℤ := ⌈total_exp_time / sub_exp_time⌉
  let t : ℝ :=
    if round_up ∧ total_exp_time ≠ (number_subs : ℝ) * sub_exp_time
    then (number_subs : ℝ) * sub_exp_time else total_exp_time
  let a := t ^ 2
  let b := -tgt ^ 2 * t
  let c := -tgt ^ 2 *
    (rate_sky * t + dark_current * t + (Real.sqrt (number_subs : ℝ) * read_noise) ^ 2)
  let rate_sci := (-b + Real.sqrt (b ^ 2 - 4 * a * c)) / (2 * a)
  let sci_mu := -2.5 * Real.logb 10 (rate_sci / (g0 * N * eff))
  sci_mu

/-- For positive inputs the brightness-limit discriminant is never
negative: its quadratic has a positive leading coefficient and a
nonpositive constant term, so real roots always exist. -/
lemma limitDisc_nonneg {g0 eff sky t target sub b N : ℝ} {ru : Bool}
    (hg0 : 0 ≤ g0) (heff : 0 ≤ eff) (hN : 0 ≤ N) (ht : 0 < t) (hsub : 0 < sub) :
    0 ≤ limitDisc g0 eff sky t target sub b N ru := by
  have hn : (0 : ℤ) < ⌈t / sub⌉ := Int.ceil_pos.mpr (div_pos ht hsub)
  have hnR : (0 : ℝ) < (⌈t / sub⌉ : ℝ) := by exact_mod_cast hn
  have hrs : 0 ≤ g0 * N * eff * (10 : ℝ) ^ (-0.4 * sky) := rate_nonneg sky hg0 heff hN
  simp only [limitDisc]
  have hte : 0 < (if ru = true ∧ t ≠ (⌈t / sub⌉ : ℝ) * sub
      then (⌈t / sub⌉ : ℝ) * sub else t) := by
    split
    · exact mul_pos hnR hsub
    · exact ht
  set te : ℝ := (if ru = true ∧ t ≠ (⌈t / sub⌉ : ℝ) * sub
      then (⌈t / sub⌉ : ℝ) * sub else t) with hte_def
  have hK : 0 ≤ g0 * N * eff * (10 : ℝ) ^ (-0.4 * sky) * te + dark_current * te +
      (Real.sqrt (⌈t / sub⌉ : ℝ) * read_noise) ^ 2 :=
    add_nonneg (add_nonneg (mul_nonneg hrs hte.le)
      (mul_nonneg dark_current_pos.le hte.le)) (sq_nonneg _)
  nlinarith [sq_nonneg ((target / b) ^ 2 * te),
    mul_nonneg (mul_nonneg (sq_nonneg (target / b)) (sq_nonneg te)) hK]

/-- On a known band with positive inputs, limit hits no error branch and
returns exactly the value limitVal. -/
lemma limit_eq_ok {band : String} {g0 eff sky : ℝ}
    (hγ : lookup band gamma0 = some g0) (hε : lookup band efficiency = some eff)
    (hσ : lookup band sky_mu = some sky) (hg0 : 0 < g0) (heff : 0 < eff)
    {t target sub b N : ℝ} {ru : Bool}
    (ht : 0 < t) (htgt : 0 < target) (hsub : 0 < sub) (hb : 0 < b) (hN : 0 < N) :
    limit band t target sub b N ru = .ok (limitVal g0 eff sky t target sub b N ru) := by
  have hn : (0 : ℤ) < ⌈t / sub⌉ := Int.ceil_pos.mpr (div_pos ht hsub)
  have hnR : (0 : ℝ) < (⌈t / sub⌉ : ℝ) := by exact_mod_cast hn
  have htgt' : 0 < target / b := div_pos htgt hb
  have hrs : 0 ≤ g0 * N * eff * (10 : ℝ) ^ (-0.4 * sky) := rate_nonneg sky hg0.le heff.le hN.le
  simp only [limit, limitVal, hγ, hε, hσ]
  rw [if_neg hb.ne', if_neg hsub.ne', if_neg (not_lt.mpr hn.le)]
  have hte : 0 < (if ru = true ∧ t ≠ (⌈t / sub⌉ : ℝ) * sub
      then (⌈t / sub⌉ : ℝ) * sub else t) := by
    split
    · exact mul_pos hnR hsub
    · exact ht
  set te : ℝ := (if ru = true ∧ t ≠ (⌈t / sub⌉ : ℝ) * sub
      then (⌈t / sub⌉ : ℝ) * sub else t) with hte_def
  have hK : 0 ≤ g0 * N * eff * (10 : ℝ) ^ (-0.4 * sky) * te + dark_current * te +
      (Real.sqrt (⌈t / sub⌉ : ℝ) * read_noise) ^ 2 :=
    add_nonneg (add_nonneg (mul_nonneg hrs hte.le)
      (mul_nonneg dark_current_pos.le hte.le)) (sq_nonneg _)
  have hdisc : 0 ≤ (-(target / b) ^ 2 * te) ^ 2 - 4 * te ^ 2 *
      (-(target / b) ^ 2 * (g0 * N * eff * (10 : ℝ) ^ (-0.4 * sky) * te +
        dark_current * te + (Real.sqrt (⌈t / sub⌉ : ℝ) * read_noise) ^ 2)) := by
    nlinarith [sq_nonneg ((target / b) ^ 2 * te),
      mul_nonneg (mul_nonneg (sq_nonneg (target / b)) (sq_nonneg te)) hK]
  rw [if_neg (not_lt.mpr hdisc)]
  rw [if_neg (pow_ne_zero 2 hte.ne')]
  have hgNe : g0 * N * eff ≠ 0 := (by positivity : (0 : ℝ) < g0 * N * eff).ne'
  rw [if_neg hgNe]
  have hnum : 0 < -(-(target / b) ^ 2 * te) + Real.sqrt ((-(target / b) ^ 2 * te) ^ 2 -
      4 * te ^ 2 * (-(target / b) ^ 2 * (g0 * N * eff * (10 : ℝ) ^ (-0.4 * sky) * te +
        dark_current * te + (Real.sqrt (⌈t / sub⌉ : ℝ) * read_noise) ^ 2))) := by
    have h1 := Real.sqrt_nonneg ((-(target / b) ^ 2 * te) ^ 2 - 4 * te ^ 2 *
      (-(target / b) ^ 2 * (g0 * N * eff * (10 : ℝ) ^ (-0.4 * sky) * te +
        dark_current * te + (Real.sqrt (⌈t / sub⌉ : ℝ) * read_noise) ^ 2)))
    nlinarith [mul_pos (pow_pos htgt' 2) hte]
  have hpos : 0 < (-(-(target / b) ^ 2 * te) + Real.sqrt ((-(target / b) ^ 2 * te) ^ 2 -
      4 * te ^ 2 * (-(target / b) ^ 2 * (g0 * N * eff * (10 : ℝ) ^ (-0.4 * sky) * te +
        dark_current * te + (Real.sqrt (⌈t / sub⌉ : ℝ) * read_noise) ^ 2)))) /
      (2 * te ^ 2) / (g0 * N * eff) :=
    div_pos (div_pos hnum (by positivity)) (by positivity)
  rw [if_neg (not_le.mpr hpos)]

/-- Counterexample to claim C3: no valid input to limit produces a negative
discriminant, so the claimed NoRealSolution failure mode never occurs.  The
quadratic always has real roots because its constant term is nonpositive. -/
theorem no_negative_discriminant :
    ¬ ∃ (band : String) (g0 eff sky t target sub b N : ℝ) (ru : Bool),
      (lookup band gamma0 = some g0 ∧ lookup band efficiency = some eff ∧
        lookup band sky_mu = some sky ∧ 0 < t ∧ 0 < target ∧ 0 < sub ∧
        1 ≤ b ∧ 1 ≤ N) ∧
      limitDisc g0 eff sky t target sub b N ru < 0 ∧
      limit band t target sub b N ru = .error .valueError := by
  rintro ⟨band, g0, eff, sky, t, target, sub, b, N, ru,
    ⟨hγ, hε, hσ, ht, htgt, hsub, hb, hN⟩, hdisc, -⟩
  exact absurd hdisc (not_lt.mpr (limitDisc_nonneg (lookup_gamma0_pos hγ).le
    (lookup_efficiency_pos hε).le (by linarith) ht hsub))

/-- Claim C3, amended.  For every valid input of limit, including an
unreasonably large target SNR with a tiny positive exposure time, the
discriminant is nonnegative and limit returns a real value: the negative
discriminant failure is unreachable. -/
theorem limit_discriminant_never_negative (band : String)
    (g0 eff sky t target sub b N : ℝ) (ru : Bool)
    (hγ : lookup band gamma0 = some g0) (hε : lookup band efficiency = some eff)
    (hσ : lookup band sky_mu = some sky)
    (ht : 0 < t) (htgt : 0 < target) (hsub : 0 < sub) (hb : 0 < b) (hN : 0 < N) :
    0 ≤ limitDisc g0 eff sky t target sub b N ru ∧
      ∃ v, limit band t target sub b N ru = .ok v :=
  ⟨limitDisc_nonneg (lookup_gamma0_pos hγ).le (lookup_efficiency_pos hε).le
      hN.le ht hsub,
    ⟨_, limit_eq_ok hγ hε hσ (lookup_gamma0_pos hγ) (lookup_efficiency_pos hε)
      ht htgt hsub hb hN⟩⟩

/-- Witness for the amended claim C3: target SNR one million at a
millisecond of exposure still has a nonnegative discriminant and yields a
value. -/
theorem limit_discriminant_never_negative_witness :
    (0 : ℝ) < 1 / 1000 ∧ (0 : ℝ) < 1000000 ∧
      0 ≤ limitDisc 1.79e9 0.34 22.0 (1 / 1000) 1000000 600 1 1 true ∧
      ∃ v, limit "g" (1 / 1000) 1000000 600 1 1 true = .ok v := by
  obtain ⟨h1, h2⟩ := limit_discriminant_never_negative "g" 1.79e9 0.34 22.0
    (1 / 1000) 1000000 600 1 1 true
    lookup_gamma0_g lookup_efficiency_g lookup_sky_mu_g
    (by norm_num) (by norm_num) (by norm_num) (by norm_num) (by norm_num)
  exact ⟨by norm_num, by norm_num, h1, h2⟩

/-- Inverting the Dragonfly magnitude-to-rate conversion recovers the
surface brightness. -/
lemma inverse_rate_log {g0 eff N mu : ℝ} (hgNe : g0 * N * eff ≠ 0) :
    -2.5 * Real.logb 10 (g0 * N * eff * (10 : ℝ) ^ (-0.4 * mu) / (g0 * N * eff)) = mu := by
  rw [mul_div_cancel_left₀ _ hgNe]
  rw [Real.logb_rpow (by norm_num : (0 : ℝ) < 10) (by norm_num : (10 : ℝ) ≠ 1)]
  ring

lemma ceil_mul_div {m : ℤ} {sub : ℝ} (hsub : sub ≠ 0) :
    ⌈(m : ℝ) * sub / sub⌉ = m := by
  rw [mul_div_assoc, div_self hsub, mul_one, Int.ceil_intCast]

/-- The snr value is positive at an exact positive multiple of the
sub-exposure time with positive binning and N. -/
lemma snrVal_sub_mult_pos {g0 eff sky mu sub b N : ℝ} {n : ℤ}
    (hg0 : 0 < g0) (heff : 0 < eff) (hN : 0 < N) (hb : 0 < b)
    (hsub : 0 < sub) (hn : 1 ≤ n) :
    0 < snrVal g0 eff sky mu ((n : ℝ) * sub) sub b N false := by
  rw [snrVal_sub_mult hg0 heff hN.le hsub hn]
  have hnR : (0 : ℝ) < (n : ℝ) := by exact_mod_cast lt_of_lt_of_le one_pos hn
  exact div_pos
    (mul_pos (mul_pos hb (rateOf_pos mu hg0 heff hN))
      (Real.sqrt_pos.mpr (mul_pos hnR hsub)))
    (Real.sqrt_pos.mpr (noiseRate_pos sky mu hg0 heff hN.le hsub))

/-- Key round-trip computation: feeding the snr value at an exact multiple
of the sub-exposure time back into the brightness-limit value recovers the
original surface brightness exactly. -/
lemma limitVal_inverts {g0 eff sky mu sub : ℝ} {m : ℤ}
    (hg0 : 0 < g0) (heff : 0 < eff) (hsub : 0 < sub) (hm : 1 ≤ m) :
    limitVal g0 eff sky ((m : ℝ) * sub)
      (snrVal g0 eff sky mu ((m : ℝ) * sub) sub 1 1 false) sub 1 1 false = mu := by
  have hmR : (0 : ℝ) < (m : ℝ) := by exact_mod_cast lt_of_lt_of_le one_pos hm
  have hT : (0 : ℝ) < (m : ℝ) * sub := mul_pos hmR hsub
  have hceil : ⌈(m : ℝ) * sub / sub⌉ = m := ceil_mul_div hsub.ne'
  have hr : (0 : ℝ) < g0 * 1 * eff * (10 : ℝ) ^ (-0.4 * mu) :=
    rate_pos mu hg0 heff one_pos
  have hrs : (0 : ℝ) ≤ g0 * 1 * eff * (10 : ℝ) ^ (-0.4 * sky) :=
    rate_nonneg sky hg0.le heff.le zero_le_one
  have hs : snrVal g0 eff sky mu ((m : ℝ) * sub) sub 1 1 false =
      g0 * 1 * eff * (10 : ℝ) ^ (-0.4 * mu) * ((m : ℝ) * sub) /
        Real.sqrt (g0 * 1 * eff * (10 : ℝ) ^ (-0.4 * mu) * ((m : ℝ) * sub) +
          (g0 * 1 * eff * (10 : ℝ) ^ (-0.4 * sky) * ((m : ℝ) * sub) +
            dark_current * ((m : ℝ) * sub) +
            (Real.sqrt (m : ℝ) * read_noise) ^ 2)) := by
    rw [snrVal_false_eq, hceil]
    simp only [rateOf, one_mul]
    congr 1
    ring
  simp only [limitVal, hceil]
  rw [roundup_ite_false, hs]
  simp only [div_one]
  set T : ℝ := (m : ℝ) * sub with hT_def
  set K : ℝ := g0 * 1 * eff * (10 : ℝ) ^ (-0.4 * sky) * T + dark_current * T +
    (Real.sqrt (m : ℝ) * read_noise) ^ 2 with hK_def
  set r : ℝ := g0 * 1 * eff * (10 : ℝ) ^ (-0.4 * mu) with hr_def
  have hK0 : 0 ≤ K := by
    rw [hK_def]
    exact add_nonneg (add_nonneg (mul_nonneg hrs hT.le)
      (mul_nonneg dark_current_pos.le hT.le)) (sq_nonneg _)
  have hrK : 0 < r * T + K := add_pos_of_pos_of_nonneg (mul_pos hr hT) hK0
  set q : ℝ := Real.sqrt (r * T + K) with hq_def
  have hq2 : q ^ 2 = r * T + K := Real.sq_sqrt hrK.le
  have hq0 : q ≠ 0 := (Real.sqrt_pos.mpr hrK).ne'
  have hs2 : (r * T / q) ^ 2 * (r * T + K) = (r * T) ^ 2 := by
    rw [div_pow, hq2]
    exact div_mul_cancel₀ _ hrK.ne'
  have hdisc_eq : (-(r * T / q) ^ 2 * T) ^ 2 - 4 * T ^ 2 * (-(r * T / q) ^ 2 * K) =
      (2 * T ^ 2 * r - (r * T / q) ^ 2 * T) ^ 2 := by
    linear_combination (4 * T ^ 2) * hs2
  have hrpos : 0 < r := hr
  have hX : 2 * T ^ 2 * r - (r * T / q) ^ 2 * T =
      (T ^ 3 * r ^ 2 + 2 * T ^ 2 * r * K) / (r * T + K) := by
    rw [div_pow, hq2]
    field_simp
    ring
  have h2ar : 0 ≤ 2 * T ^ 2 * r - (r * T / q) ^ 2 * T := by
    rw [hX]
    apply div_nonneg _ hrK.le
    have h1 : 0 < T ^ 3 * r ^ 2 := mul_pos (pow_pos hT 3) (pow_pos hrpos 2)
    have h2 : 0 ≤ 2 * T ^ 2 * r * K :=
      mul_nonneg (mul_pos (mul_pos two_pos (pow_pos hT 2)) hrpos).le hK0
    linarith
  rw [hdisc_eq, Real.sqrt_sq h2ar]
  have hfin : (-(-(r * T / q) ^ 2 * T) + (2 * T ^ 2 * r - (r * T / q) ^ 2 * T)) /
      (2 * T ^ 2) = r := by
    rw [show -(-(r * T / q) ^ 2 * T) + (2 * T ^ 2 * r - (r * T / q) ^ 2 * T) =
      2 * T ^ 2 * r by ring]
    exact mul_div_cancel_left₀ _ (by positivity)
  rw [hfin, hr_def]
  exact inverse_rate_log (by positivity)

/-- Claim C4.  Round trip: on a known band, for a positive total exposure
time that is an exact multiple of the sub-exposure time, with rounding
disabled and default binning and N, feeding the snr value back into limit
recovers the surface brightness exactly (exact real arithmetic). -/
theorem limit_snr_roundtrip (band : String) (g0 eff sky mu t sub : ℝ) (m : ℤ)
    (hγ : lookup band gamma0 = some g0) (hε : lookup band efficiency = some eff)
    (hσ : lookup band sky_mu = some sky)
    (hsub : 0 < sub) (hm : 1 ≤ m) (ht : t = (m : ℝ) * sub) :
    limit band t (snrVal g0 eff sky mu t sub 1 1 false) sub 1 1 false = .ok mu := by
  subst ht
  have hg0 := lookup_gamma0_pos hγ
  have heff := lookup_efficiency_pos hε
  have hmR : (0 : ℝ) < (m : ℝ) := by exact_mod_cast lt_of_lt_of_le one_pos hm
  have hspos : 0 < snrVal g0 eff sky mu ((m : ℝ) * sub) sub 1 1 false :=
    snrVal_sub_mult_pos hg0 heff one_pos one_pos hsub hm
  rw [limit_eq_ok hγ hε hσ hg0 heff (mul_pos hmR hsub) hspos hsub one_pos one_pos]
  exact congrArg Except.ok (limitVal_inverts hg0 heff hsub hm)

/-- Witness for claim C4 on the g band: a 1200 s exposure of two 600 s subs
at magnitude 25 round-trips exactly. -/
theorem limit_snr_roundtrip_witness :
    (0 : ℝ) < 600 ∧ (1 : ℤ) ≤ 2 ∧ (1200 : ℝ) = ((2 : ℤ) : ℝ) * 600 ∧
      limit "g" 1200 (snrVal 1.79e9 0.34 22.0 25 1200 600 1 1 false)
        600 1 1 false = .ok 25 :=
  ⟨by norm_num, by norm_num, by norm_num,
    limit_snr_roundtrip "g" 1.79e9 0.34 22.0 25 1200 600 2
      lookup_gamma0_g lookup_efficiency_g lookup_sky_mu_g
      (by norm_num) (by norm_num) (by norm_num)⟩

/-- The analytic large-exposure estimate computed by etc before its
correction loop. -/
noncomputable def etcEstimate (g0 eff sky : ℝ) (mu target sub b N : ℝ) : ℝ :=
  (target / b) ^ 2 * (g0 * N * eff * (10 : ℝ) ^ (-0.4 * mu) +
    g0 * N * eff * (10 : ℝ) ^ (-0.4 * sky) + dark_current +
    read_noise ^ 2 / sub) / (g0 * N * eff * (10 : ℝ) ^ (-0.4 * mu)) ^ 2

lemma etcEstimate_fold (g0 eff sky mu target sub b N : ℝ) :
    (target / b) ^ 2 * (g0 * N * eff * (10 : ℝ) ^ (-0.4 * mu) +
      g0 * N * eff * (10 : ℝ) ^ (-0.4 * sky) + dark_current +
      read_noise ^ 2 / sub) / (g0 * N * eff * (10 : ℝ) ^ (-0.4 * mu)) ^ 2 =
      etcEstimate g0 eff sky mu target sub b N := rfl

lemma etcEstimate_eq (g0 eff sky mu target sub b N : ℝ) :
    etcEstimate g0 eff sky mu target sub b N =
      (target / b) ^ 2 * noiseRate g0 eff sky mu sub N / (rateOf g0 eff N mu) ^ 2 := rfl

open Classical in
/-- Everything the correction loop of etc does on valid inputs: the initial
ceiling of the analytic estimate is at least one sub-exposure, the loop
stops immediately there, the SNR at that exposure meets the target, and one
fewer sub-exposure falls strictly short of the target. -/
lemma etc_main {band : String} {g0 eff sky : ℝ}
    (hγ : lookup band gamma0 = some g0) (hε : lookup band efficiency = some eff)
    (hσ : lookup band sky_mu = some sky)
    {mu target sub b N : ℝ}
    (htgt : 0 < target) (hsub : 0 < sub) (hb : 1 ≤ b) (hN : 1 ≤ N) :
    1 ≤ ⌈etcEstimate g0 eff sky mu target sub b N / sub⌉ ∧
    etc mu band target sub b N =
      .ok ((((⌈etcEstimate g0 eff sky mu target sub b N / sub⌉ : ℤ) : ℝ)) * sub,
        ⌈etcEstimate g0 eff sky mu target sub b N / sub⌉) ∧
    target ≤ snrVal g0 eff sky mu
      (((⌈etcEstimate g0 eff sky mu target sub b N / sub⌉ : ℤ) : ℝ) * sub)
      sub b N false ∧
    snrVal g0 eff sky mu
      (((⌈etcEstimate g0 eff sky mu target sub b N / sub⌉ - 1 : ℤ) : ℝ) * sub)
      sub b N false < target := by
  have hg0 := lookup_gamma0_pos hγ
  have heff := lookup_efficiency_pos hε
  have hN0 : 0 < N := lt_of_lt_of_le one_pos hN
  have hb0 : 0 < b := lt_of_lt_of_le one_pos hb
  have hr : 0 < rateOf g0 eff N mu := rateOf_pos mu hg0 heff hN0
  have hC : 0 < noiseRate g0 eff sky mu sub N := noiseRate_pos sky mu hg0 heff hN0.le hsub
  have hsC : 0 < Real.sqrt (noiseRate g0 eff sky mu sub N) := Real.sqrt_pos.mpr hC
  have htgt' : 0 < target / b := div_pos htgt hb0
  have hTe : 0 < etcEstimate g0 eff sky mu target sub b N := by
    rw [etcEstimate_eq]
    exact div_pos (mul_pos (pow_pos htgt' 2) hC) (pow_pos hr 2)
  have hn0 : 1 ≤ ⌈etcEstimate g0 eff sky mu target sub b N / sub⌉ :=
    Int.ceil_pos.mpr (div_pos hTe hsub)
  have hn0R : (1 : ℝ) ≤ ((⌈etcEstimate g0 eff sky mu target sub b N / sub⌉ : ℤ) : ℝ) := by
    exact_mod_cast hn0
  have hn0R0 : (0 : ℝ) < ((⌈etcEstimate g0 eff sky mu target sub b N / sub⌉ : ℤ) : ℝ) :=
    lt_of_lt_of_le one_pos hn0R
  -- the continuous closed form hits the target exactly at the estimate
  have hsqTe : Real.sqrt (etcEstimate g0 eff sky mu target sub b N) =
      target / b * Real.sqrt (noiseRate g0 eff sky mu sub N) / rateOf g0 eff N mu := by
    have h2 : (target / b * Real.sqrt (noiseRate g0 eff sky mu sub N) /
        rateOf g0 eff N mu) ^ 2 =
        (target / b) ^ 2 * noiseRate g0 eff sky mu sub N / (rateOf g0 eff N mu) ^ 2 := by
      rw [div_pow, mul_pow, Real.sq_sqrt hC.le]
    rw [etcEstimate_eq, ← h2]
    exact Real.sqrt_sq
      (div_nonneg (mul_nonneg htgt'.le (Real.sqrt_nonneg _)) hr.le)
  have hGTe : b * rateOf g0 eff N mu *
      Real.sqrt (etcEstimate g0 eff sky mu target sub b N) /
      Real.sqrt (noiseRate g0 eff sky mu sub N) = target := by
    rw [hsqTe]
    field_simp
  -- SNR at the rounded-up count meets the target
  have hTle : etcEstimate g0 eff sky mu target sub b N ≤
      ((⌈etcEstimate g0 eff sky mu target sub b N / sub⌉ : ℤ) : ℝ) * sub := by
    have h1 := Int.le_ceil (etcEstimate g0 eff sky mu target sub b N / sub)
    calc etcEstimate g0 eff sky mu target sub b N
        = etcEstimate g0 eff sky mu target sub b N / sub * sub := by
          field_simp
      _ ≤ ((⌈etcEstimate g0 eff sky mu target sub b N / sub⌉ : ℤ) : ℝ) * sub :=
          mul_le_mul_of_nonneg_right h1 hsub.le
  have hhigh : target ≤ snrVal g0 eff sky mu
      (((⌈etcEstimate g0 eff sky mu target sub b N / sub⌉ : ℤ) : ℝ) * sub)
      sub b N false := by
    rw [snrVal_sub_mult hg0 heff hN0.le hsub hn0]
    exact le_trans (le_of_eq hGTe.symm)
      ((div_le_div_right hsC).mpr (mul_le_mul_of_nonneg_left
        (Real.sqrt_le_sqrt hTle) (mul_nonneg hb0.le hr.le)))
  -- SNR one count earlier falls strictly short
  have hlow : snrVal g0 eff sky mu
      (((⌈etcEstimate g0 eff sky mu target sub b N / sub⌉ - 1 : ℤ) : ℝ) * sub)
      sub b N false < target := by
    rcases eq_or_lt_of_le hn0 with h1 | h1
    · have hz : (((⌈etcEstimate g0 eff sky mu target sub b N / sub⌉ - 1 : ℤ) : ℝ)) *
          sub = 0 := by
        rw [← h1]
        norm_num
      rw [hz, snrVal_zero]
      exact htgt
    · have hm1 : (1 : ℤ) ≤ ⌈etcEstimate g0 eff sky mu target sub b N / sub⌉ - 1 := by
        omega
      rw [snrVal_sub_mult hg0 heff hN0.le hsub hm1]
      have hTlt : (((⌈etcEstimate g0 eff sky mu target sub b N / sub⌉ - 1 : ℤ) : ℝ)) *
          sub < etcEstimate g0 eff sky mu target sub b N := by
        have h2 := Int.ceil_lt_add_one (etcEstimate g0 eff sky mu target sub b N / sub)
        have h3 : (((⌈etcEstimate g0 eff sky mu target sub b N / sub⌉ - 1 : ℤ) : ℝ)) <
            etcEstimate g0 eff sky mu target sub b N / sub := by
          push_cast
          linarith
        calc (((⌈etcEstimate g0 eff sky mu target sub b N / sub⌉ - 1 : ℤ) : ℝ)) * sub
            < etcEstimate g0 eff sky mu target sub b N / sub * sub :=
              mul_lt_mul_of_pos_right h3 hsub
          _ = etcEstimate g0 eff sky mu target sub b N := by field_simp
      have hnn : (0 : ℝ) ≤
          (((⌈etcEstimate g0 eff sky mu target sub b N / sub⌉ - 1 : ℤ) : ℝ)) * sub := by
        have : (0 : ℝ) ≤ ((⌈etcEstimate g0 eff sky mu target sub b N / sub⌉ - 1 : ℤ) : ℝ) := by
          exact_mod_cast le_trans zero_le_one hm1
        exact mul_nonneg this hsub.le
      have hsq := Real.sqrt_lt_sqrt hnn hTlt
      exact lt_of_lt_of_le
        ((div_lt_div_iff_of_pos_right hsC).mpr
          (mul_lt_mul_of_pos_left hsq (mul_pos hb0 hr)))
        (le_of_eq hGTe)
  -- snr never raises inside the loop at the initial count
  have hf0 : snr mu band
      ((((⌈etcEstimate g0 eff sky mu target sub b N / sub⌉ : ℤ) : ℝ)) * sub)
      sub b N false =
      .ok (snrVal g0 eff sky mu
        ((((⌈etcEstimate g0 eff sky mu target sub b N / sub⌉ : ℤ) : ℝ)) * sub)
        sub b N false) :=
    snr_eq_ok hγ hε hσ hg0 heff hN0.le (mul_pos hn0R0 hsub) hsub
  -- the loop guard fails at the initial count
  have hstop0 : loopStop
      (fun n : ℤ => snr mu band ((n : ℝ) * sub) sub b N false) (target / b)
      (⌈etcEstimate g0 eff sky mu target sub b N / sub⌉ + ((0 : ℕ) : ℤ)) := by
    simp only [Nat.cast_zero, add_zero, loopStop]
    rw [hf0]
    exact not_lt.mpr (le_trans (div_le_self htgt.le hb) hhigh)
  have hmain : etc mu band target sub b N =
      .ok ((((⌈etcEstimate g0 eff sky mu target sub b N / sub⌉ : ℤ) : ℝ)) * sub,
        ⌈etcEstimate g0 eff sky mu target sub b N / sub⌉) := by
    simp only [etc, hγ, hε, hσ]
    rw [if_neg hb0.ne', if_neg hsub.ne',
      if_neg (rate_pos mu hg0 heff hN0).ne', etcEstimate_fold]
    rw [dif_pos ⟨0, hstop0⟩]
    have hfz : ∀ h : ∃ k : ℕ, loopStop
        (fun n : ℤ => snr mu band ((n : ℝ) * sub) sub b N false) (target / b)
        (⌈etcEstimate g0 eff sky mu target sub b N / sub⌉ + (k : ℤ)),
        Nat.find h = 0 := fun h => (Nat.find_eq_zero h).mpr hstop0
    rw [hfz]
    simp only [Nat.cast_zero, add_zero]
    rw [hf0]
  exact ⟨hn0, hmain, hhigh, hlow⟩

/-- With rounding disabled each extra sub-exposure strictly increases the
snr value. -/
lemma snrVal_strict_increasing_subs {g0 eff sky mu sub b N : ℝ}
    (hg0 : 0 < g0) (heff : 0 < eff) (hN0 : 0 < N) (hb : 0 < b) (hsub : 0 < sub)
    {n : ℤ} (hn : 1 ≤ n) :
    snrVal g0 eff sky mu ((n : ℝ) * sub) sub b N false <
      snrVal g0 eff sky mu (((n + 1 : ℤ) : ℝ) * sub) sub b N false := by
  rw [snrVal_sub_mult hg0 heff hN0.le hsub hn,
    snrVal_sub_mult hg0 heff hN0.le hsub (by omega : (1 : ℤ) ≤ n + 1)]
  have hC := Real.sqrt_pos.mpr (noiseRate_pos sky mu hg0 heff hN0.le hsub)
  have hlt : ((n : ℝ)) * sub < ((n + 1 : ℤ) : ℝ) * sub :=
    mul_lt_mul_of_pos_right (by push_cast; linarith) hsub
  have hnn : (0 : ℝ) ≤ (n : ℝ) * sub := by
    have : (0 : ℝ) ≤ (n : ℝ) := by exact_mod_cast le_trans zero_le_one hn
    exact mul_nonneg this hsub.le
  exact (div_lt_div_iff_of_pos_right hC).mpr
    (mul_lt_mul_of_pos_left (Real.sqrt_lt_sqrt hnn hlt)
      (mul_pos hb (rateOf_pos mu hg0 heff hN0)))

/-- Claim C6.  On valid inputs, each increment of the sub-exposure count
strictly increases the achieved SNR while the target stays fixed, and the
correction loop of etc terminates and returns a result. -/
theorem etc_loop_terminates (band : String) (g0 eff sky mu target sub b N : ℝ)
    (hγ : lookup band gamma0 = some g0) (hε : lookup band efficiency = some eff)
    (hσ : lookup band sky_mu = some sky)
    (htgt : 0 < target) (hsub : 0 < sub) (hb : 1 ≤ b) (hN : 1 ≤ N) :
    (∀ n : ℤ, 1 ≤ n →
      snrVal g0 eff sky mu ((n : ℝ) * sub) sub b N false <
        snrVal g0 eff sky mu (((n + 1 : ℤ) : ℝ) * sub) sub b N false) ∧
    ∃ p, etc mu band target sub b N = .ok p := by
  refine ⟨fun n hn => snrVal_strict_increasing_subs (lookup_gamma0_pos hγ)
    (lookup_efficiency_pos hε) (lt_of_lt_of_le one_pos hN)
    (lt_of_lt_of_le one_pos hb) hsub hn, ?_⟩
  obtain ⟨-, hmain, -, -⟩ := etc_main hγ hε hσ htgt hsub hb hN
  exact ⟨_, hmain⟩

/-- Witness for claim C6 on the g band at target SNR 5. -/
theorem etc_loop_terminates_witness :
    (snrVal 1.79e9 0.34 22.0 22 (((1 : ℤ) : ℝ) * 600) 600 1 1 false <
      snrVal 1.79e9 0.34 22.0 22 (((1 + 1 : ℤ) : ℝ) * 600) 600 1 1 false) ∧
      ∃ p, etc 22 "g" 5 600 1 1 = .ok p := by
  obtain ⟨h1, h2⟩ := etc_loop_terminates "g" 1.79e9 0.34 22.0 22 5 600 1 1
    lookup_gamma0_g lookup_efficiency_g lookup_sky_mu_g
    (by norm_num) (by norm_num) le_rfl le_rfl
  exact ⟨h1 1 le_rfl, h2⟩

/-- Claim C2.  On valid inputs etc returns a pair (n times sub, n) whose
SNR with rounding disabled meets the target, and one fewer sub-exposure
yields an SNR strictly below the target (n is the first sufficient
count). -/
theorem etc_meets_target (band : String) (g0 eff sky mu target sub b N : ℝ)
    (hγ : lookup band gamma0 = some g0) (hε : lookup band efficiency = some eff)
    (hσ : lookup band sky_mu = some sky)
    (htgt : 0 < target) (hsub : 0 < sub) (hb : 1 ≤ b) (hN : 1 ≤ N) :
    ∃ n : ℤ, 1 ≤ n ∧
      etc mu band target sub b N = .ok ((n : ℝ) * sub, n) ∧
      (∃ v, snr mu band ((n : ℝ) * sub) sub b N false = .ok v ∧ target ≤ v) ∧
      snrVal g0 eff sky mu (((n - 1 : ℤ) : ℝ) * sub) sub b N false < target := by
  obtain ⟨hn0, hmain, hhigh, hlow⟩ := etc_main hγ hε hσ htgt hsub hb hN
  refine ⟨⌈etcEstimate g0 eff sky mu target sub b N / sub⌉, hn0, hmain,
    ⟨_, ?_, hhigh⟩, hlow⟩
  have hn0R0 : (0 : ℝ) < ((⌈etcEstimate g0 eff sky mu target sub b N / sub⌉ : ℤ) : ℝ) := by
    exact_mod_cast lt_of_lt_of_le one_pos hn0
  exact snr_eq_ok hγ hε hσ (lookup_gamma0_pos hγ) (lookup_efficiency_pos hε)
    (le_trans zero_le_one hN) (mul_pos hn0R0 hsub) hsub

/-- Witness for claim C2 on the g band at target SNR 5. -/
theorem etc_meets_target_witness :
    (0 : ℝ) < 5 ∧ (0 : ℝ) < 600 ∧
      ∃ n : ℤ, 1 ≤ n ∧
        etc 22 "g" 5 600 1 1 = .ok ((n : ℝ) * 600, n) ∧
        (∃ v, snr 22 "g" ((n : ℝ) * 600) 600 1 1 false = .ok v ∧ 5 ≤ v) ∧
        snrVal 1.79e9 0.34 22.0 22 (((n - 1 : ℤ) : ℝ) * 600) 600 1 1 false < 5 :=
  ⟨by norm_num, by norm_num,
    etc_meets_target "g" 1.79e9 0.34 22.0 22 5 600 1 1
      lookup_gamma0_g lookup_efficiency_g lookup_sky_mu_g
      (by norm_num) (by norm_num) le_rfl le_rfl⟩

end SNRSpec
